import Mathlib

/-!
Shallow embedding of `day_1.py`: a room-scheduling script that builds a
conflict graph, colors it greedily (via the external `networkx` library's
`greedy_color` with the `largest_first` strategy, modelled here from the
spec), generates random instances, and runs a parametrized benchmark.
Randomness (`random.random()`) is modelled as an explicit stream of
rational draws in `[0, 1)`.
-/

/-- Smallest-missing-number search: starting at `k`, return the first
number not in `l`, with explicit fuel. -/
def mexGo (l : List Nat) : Nat → Nat → Nat
  | 0, k => k
  | fuel + 1, k => if k ∈ l then mexGo l fuel (k + 1) else k

/-- Smallest natural number not occurring in `l` (the color chosen by
greedy coloring among already-used neighbor colors). -/
def mex (l : List Nat) : Nat :=
  mexGo l (l.foldr max 0 + 2) 0

/-- An undirected graph as built by `nx.Graph()`: nodes in insertion
order, edges as the raw list of pairs handed to `add_edges_from`. -/
structure Graph where
  nodes : List String
  edges : List (String × String)

/-- Adjacency test: `u` and `v` are joined by some edge, in either
orientation. -/
def adjB (G : Graph) (u v : String) : Bool :=
  G.edges.any (fun e => (e.1 == u && e.2 == v) || (e.1 == v && e.2 == u))

/-- `nx.Graph` node insertion: append a node unless already present. -/
def addNode (ns : List String) (v : String) : List String :=
  if v ∈ ns then ns else ns ++ [v]

/-- Node list of the graph built by `G.add_nodes_from(events)` followed by
`G.add_edges_from(conflicts)`: events in order, then any edge endpoints
not yet present. -/
def buildNodes (events : List String) (conflicts : List (String × String)) : List String :=
  conflicts.foldl (fun ns e => addNode (addNode ns e.1) e.2) (events.foldl addNode [])

/-- The conflict graph constructed in `schedule_events` (source lines
17-19). -/
def buildGraph (events : List String) (conflicts : List (String × String)) : Graph :=
  ⟨buildNodes events conflicts, conflicts⟩

/-- Number of uncolored neighbors of `v` among the remaining vertices
`rem`. -/
def remDeg (G : Graph) (rem : List String) (v : String) : Nat :=
  (rem.filter (fun u => !(u == v) && adjB G v u)).length

/-- Select the uncolored vertex of highest remaining degree; ties are
broken by insertion order (the earlier vertex wins). -/
def pickMax (G : Graph) (rem : List String) : Option String :=
  match rem with
  | [] => none
  | v :: vs => some (vs.foldl (fun best u => if remDeg G rem best < remDeg G rem u then u else best) v)

/-- Colors already given to colored neighbors of `v` under the
in-progress assignment `asg`. -/
def usedColors (G : Graph) (asg : List (String × Nat)) (v : String) : List Nat :=
  asg.filterMap (fun p => if adjB G v p.1 then some p.2 else none)

/-- One greedy-coloring loop: repeatedly pick the uncolored vertex of
highest remaining degree and give it the smallest color unused by its
colored neighbors, recording assignments in coloring order. -/
def greedyGo (G : Graph) : Nat → List String → List (String × Nat) → List (String × Nat)
  | 0, _, asg => asg
  | fuel + 1, rem, asg =>
    match pickMax G rem with
    | none => asg
    | some v => greedyGo G fuel (rem.erase v) (asg ++ [(v, mex (usedColors G asg v))])

/-- Modelled from the spec: `nx.coloring.greedy_color(G, strategy="largest_first")`
is supplied by the external networkx library, absent from this repository.
Per the spec it repeatedly selects the uncolored vertex of highest
remaining degree (ties broken by a deterministic insertion order) and
assigns it the smallest room index not used by any already-colored
neighbor. -/
def greedy_color (G : Graph) : List (String × Nat) :=
  greedyGo G G.nodes.length G.nodes []

/-- The event-to-room assignment computed inside `schedule_events`. -/
def assignment (events : List String) (conflicts : List (String × String)) : List (String × Nat) :=
  greedy_color (buildGraph events conflicts)

/-- `schedule_events` (source lines 8-27): build the conflict graph,
greedily color it, and return `max(room_assignment.values()) + 1` if the
assignment is nonempty, else `0`. -/
def schedule_events (events : List String) (conflicts : List (String × String)) : Nat :=
  let asg := assignment events conflicts
  if asg.isEmpty then 0 else (asg.map Prod.snd).foldr max 0 + 1

/-- The event names `["E1", ..., "E{n}"]` produced by
`[f"E{i}" for i in range(1, num_events + 1)]`. -/
def eventNames (num_events : Nat) : List String :=
  (List.range num_events).map (fun i => "E" ++ Nat.repr (i + 1))

/-- All ordered pairs `(e1, e2)` with `e1` strictly before `e2` in the
list, in the enumeration order of the source's list comprehension. -/
def pairsList : List String → List (String × String)
  | [] => []
  | e :: es => es.map (fun e2 => (e, e2)) ++ pairsList es

/-- Keep the pairs whose random draw (one fresh draw per candidate pair,
consumed in enumeration order starting at index `k`) is below the
conflict probability. -/
def selectPairs (p : ℚ) (draws : Nat → ℚ) : List (String × String) → Nat → List (String × String)
  | [], _ => []
  | pr :: prs, k =>
    if draws k < p then pr :: selectPairs p draws prs (k + 1)
    else selectPairs p draws prs (k + 1)

/-- `generate_random_data` (source lines 30-45): `num_events` named
events, and each unordered pair kept as a conflict when its draw is below
`conflict_probability`. -/
def generate_random_data (num_events : Nat) (conflict_probability : ℚ) (draws : Nat → ℚ) :
    List String × List (String × String) :=
  (eventNames num_events,
   selectPairs conflict_probability draws (pairsList (eventNames num_events)) 0)

/-- One row of the result table built by `run_parametrized_tests`. -/
structure TrialResult where
  num_events : Nat
  conflict_probability : ℚ
  total_rooms : Nat
deriving DecidableEq

/-- The configuration of each trial, in loop order: `num_events`
outermost, `conflict_prob` in the middle, repetition innermost. -/
def trialConfigs (event_sizes : List Nat) (conflict_probs : List ℚ) (repetitions : Nat) :
    List (Nat × ℚ) :=
  event_sizes.flatMap (fun n => conflict_probs.flatMap (fun p => (List.range repetitions).map (fun _ => (n, p))))

/-- One Generator→Scheduler trial recording a `TrialResult` row. -/
def runTrial (cfg : Nat × ℚ) (draws : Nat → ℚ) : TrialResult :=
  let ec := generate_random_data cfg.1 cfg.2 draws
  ⟨cfg.1, cfg.2, schedule_events ec.1 ec.2⟩

/-- `run_parametrized_tests` (source lines 48-75): one trial per
configuration and repetition; trial number `t` consumes the draw stream
`draws t`. -/
def run_parametrized_tests (event_sizes : List Nat) (conflict_probs : List ℚ)
    (repetitions : Nat) (draws : Nat → Nat → ℚ) : List TrialResult :=
  ((trialConfigs event_sizes conflict_probs repetitions).enum).map
    (fun tc => runTrial tc.2 (draws tc.1))

/-! ### Properties of `mex` -/

theorem mem_le_foldr_max (l : List Nat) : ∀ x ∈ l, x ≤ l.foldr max 0 := by
  induction l with
  | nil => simp
  | cons a t ih =>
    intro x hx
    rcases List.mem_cons.mp hx with h | h
    · subst h; simp
    · exact le_trans (ih x h) (by simp)

theorem foldr_max_mem (l : List Nat) (h : l ≠ []) : l.foldr max 0 ∈ l := by
  induction l with
  | nil => simp at h
  | cons a t ih =>
    rcases eq_or_ne t [] with ht | ht
    · subst ht; simp
    · have hm := ih ht
      rcases Nat.le_total (t.foldr max 0) a with hle | hle
      · simp [Nat.max_eq_left hle]
      · right; simpa [Nat.max_eq_right hle] using hm

theorem mexGo_notMem (l : List Nat) :
    ∀ fuel k, (∃ j, k ≤ j ∧ j < k + fuel ∧ j ∉ l) → mexGo l fuel k ∉ l := by
  intro fuel
  induction fuel with
  | zero =>
    intro k hj
    obtain ⟨j, h1, h2, _⟩ := hj
    omega
  | succ f ih =>
    intro k hj
    obtain ⟨j, h1, h2, h3⟩ := hj
    by_cases hk : k ∈ l
    · simp only [mexGo, if_pos hk]
      apply ih
      refine ⟨j, ?_, by omega, h3⟩
      rcases Nat.eq_or_lt_of_le h1 with he | hl
      · exact absurd (he ▸ hk) h3
      · omega
    · simpa only [mexGo, if_neg hk] using hk

theorem mex_notMem (l : List Nat) : mex l ∉ l := by
  apply mexGo_notMem
  refine ⟨l.foldr max 0 + 1, by omega, by omega, fun hmem => ?_⟩
  have := mem_le_foldr_max l _ hmem
  omega

theorem mexGo_mem_of_lt (l : List Nat) :
    ∀ fuel k j, k ≤ j → j < mexGo l fuel k → j ∈ l := by
  intro fuel
  induction fuel with
  | zero =>
    intro k j h1 h2
    simp only [mexGo] at h2
    omega
  | succ f ih =>
    intro k j h1 h2
    by_cases hk : k ∈ l
    · simp only [mexGo, if_pos hk] at h2
      rcases Nat.eq_or_lt_of_le h1 with he | hl
      · exact he ▸ hk
      · exact ih (k + 1) j hl h2
    · simp only [mexGo, if_neg hk] at h2
      omega

theorem mex_mem_of_lt (l : List Nat) (j : Nat) (h : j < mex l) : j ∈ l :=
  mexGo_mem_of_lt l _ 0 j (Nat.zero_le j) h

theorem nodup_lt_length_le (l : List Nat) (n : Nat) (h : l.Nodup) (hlt : ∀ x ∈ l, x < n) :
    l.length ≤ n := by
  have h1 : l.toFinset ⊆ Finset.range n := by
    intro x hx
    simp only [Finset.mem_range]
    exact hlt x (by simpa using hx)
  have h2 := Finset.card_le_card h1
  rw [List.card_toFinset, List.dedup_eq_self.mpr h, Finset.card_range] at h2
  exact h2

theorem mex_le_length (l : List Nat) : mex l ≤ l.length := by
  have hsub : Finset.range (mex l) ⊆ l.toFinset := by
    intro j hj
    simp only [Finset.mem_range] at hj
    simpa using mex_mem_of_lt l j hj
  have h1 := Finset.card_le_card hsub
  rw [Finset.card_range] at h1
  exact le_trans h1 l.toFinset_card_le

/-! ### Injectivity of the decimal name rendering `Nat.repr` -/

/-- Inverse of `Nat.digitChar` on decimal digits. -/
def digitToNat (c : Char) : Nat := c.toNat - 48

theorem digitToNat_digitChar (d : Nat) (h : d < 10) : digitToNat (Nat.digitChar d) = d := by
  interval_cases d <;> decide

/-- Decimal digit list of `n`, most significant first. -/
def natDigits (n : Nat) : Nat → List Char
  | 0 => []
  | fuel + 1 => if n < 10 then [Nat.digitChar n] else natDigits (n / 10) fuel ++ [Nat.digitChar (n % 10)]

theorem toDigitsCore_step_small (fuel n : Nat) (ds : List Char) (h : n / 10 = 0) :
    Nat.toDigitsCore 10 (fuel + 1) n ds = Nat.digitChar (n % 10) :: ds := by
  simp only [Nat.toDigitsCore, h]
  simp

theorem toDigitsCore_step (fuel n : Nat) (ds : List Char) (h : n / 10 ≠ 0) :
    Nat.toDigitsCore 10 (fuel + 1) n ds =
      Nat.toDigitsCore 10 fuel (n / 10) (Nat.digitChar (n % 10) :: ds) := by
  simp only [Nat.toDigitsCore, h]
  simp [h]

theorem toDigitsCore_eq_natDigits :
    ∀ fuel n ds, n < 10 ^ (fuel + 1) →
      Nat.toDigitsCore 10 (fuel + 1) n ds = natDigits n (fuel + 1) ++ ds := by
  intro fuel
  induction fuel with
  | zero =>
    intro n ds h
    have h10 : n < 10 := by simpa using h
    rw [toDigitsCore_step_small 0 n ds (by omega)]
    simp [natDigits, h10, Nat.mod_eq_of_lt h10]
  | succ f ih =>
    intro n ds h
    by_cases h10 : n < 10
    · rw [toDigitsCore_step_small (f + 1) n ds (by omega)]
      simp [natDigits, h10, Nat.mod_eq_of_lt h10]
    · have hz : n / 10 ≠ 0 := by omega
      have hb : n / 10 < 10 ^ (f + 1) := by
        rw [Nat.div_lt_iff_lt_mul (by omega)]
        calc n < 10 ^ (f + 2) := h
          _ = 10 ^ (f + 1) * 10 := by rw [pow_succ]
      rw [toDigitsCore_step (f + 1) n ds hz]
      rw [ih (n / 10) (Nat.digitChar (n % 10) :: ds) hb]
      have he : natDigits n (f + 2) = natDigits (n / 10) (f + 1) ++ [Nat.digitChar (n % 10)] := by
        simp [natDigits, h10]
      rw [he, List.append_assoc]
      rfl

theorem natDigits_foldl (n : Nat) :
    ∀ fuel, n < 10 ^ fuel → ∀ a,
      (natDigits n fuel).foldl (fun x c => 10 * x + digitToNat c) a =
        a * 10 ^ (natDigits n fuel).length + n := by
  induction n using Nat.strong_induction_on with
  | _ n ih =>
    intro fuel hfuel a
    match fuel with
    | 0 =>
      simp only [pow_zero, Nat.lt_one_iff] at hfuel
      subst hfuel
      simp [natDigits]
    | f + 1 =>
      by_cases h10 : n < 10
      · simp [natDigits, h10, digitToNat_digitChar n h10]
        ring
      · obtain ⟨q, r, hr, rfl⟩ : ∃ q r, r < 10 ∧ n = 10 * q + r :=
          ⟨n / 10, n % 10, Nat.mod_lt n (by omega), (Nat.div_add_mod n 10).symm⟩
        have hq : (10 * q + r) / 10 = q := by omega
        have hrm : (10 * q + r) % 10 = r := by omega
        have hd : q < 10 * q + r := by omega
        have hb : q < 10 ^ f := by
          have : (10 * q + r) / 10 < 10 ^ f := by
            rw [Nat.div_lt_iff_lt_mul (by omega)]
            calc 10 * q + r < 10 ^ (f + 1) := hfuel
              _ = 10 ^ f * 10 := by rw [pow_succ]
          rwa [hq] at this
        simp only [natDigits, if_neg h10, hq, hrm]
        rw [List.foldl_append]
        rw [ih q hd f hb a]
        simp [digitToNat_digitChar r hr, List.length_append]
        ring

theorem toDigits_eq_natDigits (n : Nat) : Nat.toDigits 10 n = natDigits n (n + 1) := by
  have h : n < 10 ^ (n + 1) := by
    calc n < 10 ^ n := Nat.lt_pow_self (by omega) n
      _ ≤ 10 ^ (n + 1) := Nat.pow_le_pow_right (by omega) (by omega)
  have := toDigitsCore_eq_natDigits n n [] h
  simpa [Nat.toDigits] using this

theorem repr_injective (m n : Nat) (h : Nat.repr m = Nat.repr n) : m = n := by
  have hd : Nat.toDigits 10 m = Nat.toDigits 10 n := congrArg String.data h
  rw [toDigits_eq_natDigits, toDigits_eq_natDigits] at hd
  have hm : m < 10 ^ (m + 1) := by
    calc m < 10 ^ m := Nat.lt_pow_self (by omega) m
      _ ≤ 10 ^ (m + 1) := Nat.pow_le_pow_right (by omega) (by omega)
  have hn : n < 10 ^ (n + 1) := by
    calc n < 10 ^ n := Nat.lt_pow_self (by omega) n
      _ ≤ 10 ^ (n + 1) := Nat.pow_le_pow_right (by omega) (by omega)
  have e1 := natDigits_foldl m (m + 1) hm 0
  have e2 := natDigits_foldl n (n + 1) hn 0
  simp only [Nat.zero_mul, Nat.zero_add] at e1 e2
  rw [hd] at e1
  rw [e1] at e2
  exact e2

theorem strAppendCancel (a b c : String) (h : a ++ b = a ++ c) : b = c := by
  have h2 := congrArg String.data h
  simp only [String.data_append] at h2
  have h3 := List.append_cancel_left h2
  cases b
  cases c
  exact congrArg String.mk h3

/-! ### Association-list lookups under distinct keys -/

theorem lookup_eq_of_mem (asg : List (String × Nat)) (x : String) (c : Nat)
    (hnd : (asg.map Prod.fst).Nodup) (h : (x, c) ∈ asg) : asg.lookup x = some c := by
  induction asg with
  | nil => simp at h
  | cons q t ih =>
    simp only [List.map_cons, List.nodup_cons] at hnd
    rcases List.mem_cons.mp h with h1 | h1
    · subst h1
      simp [List.lookup]
    · have hx : x ≠ q.1 := by
        intro he
        exact hnd.1 (he ▸ List.mem_map_of_mem Prod.fst h1)
      simp only [List.lookup, beq_eq_false_iff_ne.mpr hx]
      exact ih hnd.2 h1

theorem mem_unique_of_keys_nodup (asg : List (String × Nat)) (x : String) (c d : Nat)
    (hnd : (asg.map Prod.fst).Nodup) (h1 : (x, c) ∈ asg) (h2 : (x, d) ∈ asg) : c = d := by
  have e1 := lookup_eq_of_mem asg x c hnd h1
  have e2 := lookup_eq_of_mem asg x d hnd h2
  rw [e1] at e2
  exact Option.some.inj e2

/-! ### Event names -/

theorem eventNames_length (n : Nat) : (eventNames n).length = n := by
  simp [eventNames]

theorem eventNames_nodup (n : Nat) : (eventNames n).Nodup := by
  apply List.Nodup.map_on ?_ (List.nodup_range n)
  intro x _ y _ hxy
  have := repr_injective (x + 1) (y + 1) (strAppendCancel "E" _ _ hxy)
  omega

theorem eventNames_ne_nil (n : Nat) (h : 0 < n) : eventNames n ≠ [] := by
  intro hc
  have := eventNames_length n
  rw [hc] at this
  simp at this
  omega

/-! ### Node insertion (`nx.Graph` construction) -/

theorem addNode_subset (ns : List String) (v : String) : ns ⊆ addNode ns v := by
  intro x hx
  unfold addNode
  split
  · exact hx
  · simp [hx]

theorem mem_addNode (ns : List String) (v : String) : v ∈ addNode ns v := by
  unfold addNode
  split
  · assumption
  · simp

theorem addNode_cases (ns : List String) (v x : String) (h : x ∈ addNode ns v) :
    x ∈ ns ∨ x = v := by
  unfold addNode at h
  split at h
  · exact Or.inl h
  · simpa using h

theorem addNode_nodup (ns : List String) (v : String) (h : ns.Nodup) : (addNode ns v).Nodup := by
  unfold addNode
  split
  · exact h
  · have hv : v ∉ ns := by assumption
    simp [List.nodup_append, h, hv]

theorem foldl_addNode_subset (l : List String) : ∀ ns, ns ⊆ l.foldl addNode ns := by
  induction l with
  | nil => intro ns; simp [List.foldl]
  | cons a t ih =>
    intro ns
    simp only [List.foldl_cons]
    exact subset_trans (addNode_subset ns a) (ih (addNode ns a))

theorem mem_foldl_addNode (l : List String) : ∀ ns x, x ∈ l → x ∈ l.foldl addNode ns := by
  induction l with
  | nil => intro ns x hx; simp at hx
  | cons a t ih =>
    intro ns x hx
    simp only [List.foldl_cons]
    rcases List.mem_cons.mp hx with h | h
    · subst h
      exact foldl_addNode_subset t (addNode ns x) (mem_addNode ns x)
    · exact ih (addNode ns a) x h

theorem foldl_addNode_cases (l : List String) :
    ∀ ns x, x ∈ l.foldl addNode ns → x ∈ ns ∨ x ∈ l := by
  induction l with
  | nil => intro ns x hx; simp only [List.foldl] at hx; exact Or.inl hx
  | cons a t ih =>
    intro ns x hx
    simp only [List.foldl_cons] at hx
    rcases ih (addNode ns a) x hx with h | h
    · rcases addNode_cases ns a x h with h1 | h1
      · exact Or.inl h1
      · exact Or.inr (by simp [h1])
    · exact Or.inr (by simp [h])

theorem foldl_addNode_nodup (l : List String) :
    ∀ ns, ns.Nodup → (l.foldl addNode ns).Nodup := by
  induction l with
  | nil => intro ns h; simpa [List.foldl] using h
  | cons a t ih =>
    intro ns h
    simp only [List.foldl_cons]
    exact ih (addNode ns a) (addNode_nodup ns a h)

theorem foldl_addPair_subset (cs : List (String × String)) :
    ∀ ns, ns ⊆ cs.foldl (fun ns e => addNode (addNode ns e.1) e.2) ns := by
  induction cs with
  | nil => intro ns; simp [List.foldl]
  | cons c t ih =>
    intro ns
    simp only [List.foldl_cons]
    exact subset_trans (addNode_subset ns c.1)
      (subset_trans (addNode_subset (addNode ns c.1) c.2) (ih _))

theorem mem_foldl_addPair (cs : List (String × String)) :
    ∀ ns p, p ∈ cs → p.1 ∈ cs.foldl (fun ns e => addNode (addNode ns e.1) e.2) ns ∧
      p.2 ∈ cs.foldl (fun ns e => addNode (addNode ns e.1) e.2) ns := by
  induction cs with
  | nil => intro ns p hp; simp at hp
  | cons c t ih =>
    intro ns p hp
    simp only [List.foldl_cons]
    rcases List.mem_cons.mp hp with h | h
    · subst h
      constructor
      · exact foldl_addPair_subset t _ (addNode_subset _ p.2 (mem_addNode ns p.1))
      · exact foldl_addPair_subset t _ (mem_addNode (addNode ns p.1) p.2)
    · exact ih _ p h

theorem foldl_addPair_cases (cs : List (String × String)) :
    ∀ ns x, x ∈ cs.foldl (fun ns e => addNode (addNode ns e.1) e.2) ns →
      x ∈ ns ∨ ∃ p ∈ cs, x = p.1 ∨ x = p.2 := by
  induction cs with
  | nil => intro ns x hx; simp only [List.foldl] at hx; exact Or.inl hx
  | cons c t ih =>
    intro ns x hx
    simp only [List.foldl_cons] at hx
    rcases ih _ x hx with h | h
    · rcases addNode_cases _ c.2 x h with h1 | h1
      · rcases addNode_cases ns c.1 x h1 with h2 | h2
        · exact Or.inl h2
        · exact Or.inr ⟨c, by simp, Or.inl h2⟩
      · exact Or.inr ⟨c, by simp, Or.inr h1⟩
    · obtain ⟨p, hp, hor⟩ := h
      exact Or.inr ⟨p, by simp [hp], hor⟩

theorem foldl_addPair_nodup (cs : List (String × String)) :
    ∀ ns, ns.Nodup → (cs.foldl (fun ns e => addNode (addNode ns e.1) e.2) ns).Nodup := by
  induction cs with
  | nil => intro ns h; simpa [List.foldl] using h
  | cons c t ih =>
    intro ns h
    simp only [List.foldl_cons]
    exact ih _ (addNode_nodup _ c.2 (addNode_nodup ns c.1 h))

theorem buildNodes_nodup (events : List String) (conflicts : List (String × String)) :
    (buildNodes events conflicts).Nodup :=
  foldl_addPair_nodup conflicts _ (foldl_addNode_nodup events [] List.nodup_nil)

theorem mem_buildNodes_of_event (events : List String) (conflicts : List (String × String))
    (x : String) (h : x ∈ events) : x ∈ buildNodes events conflicts :=
  foldl_addPair_subset conflicts _ (mem_foldl_addNode events [] x h)

theorem mem_buildNodes_of_conflict (events : List String) (conflicts : List (String × String))
    (p : String × String) (h : p ∈ conflicts) :
    p.1 ∈ buildNodes events conflicts ∧ p.2 ∈ buildNodes events conflicts :=
  mem_foldl_addPair conflicts _ p h

theorem buildNodes_subset (events : List String) (conflicts : List (String × String))
    (hmem : ∀ p ∈ conflicts, p.1 ∈ events ∧ p.2 ∈ events) :
    ∀ x ∈ buildNodes events conflicts, x ∈ events := by
  intro x hx
  rcases foldl_addPair_cases conflicts _ x hx with h | h
  · rcases foldl_addNode_cases events [] x h with h1 | h1
    · simp at h1
    · exact h1
  · obtain ⟨p, hp, hor⟩ := h
    rcases hor with h1 | h1
    · exact h1 ▸ (hmem p hp).1
    · exact h1 ▸ (hmem p hp).2

theorem buildNodes_ne_nil (events : List String) (conflicts : List (String × String))
    (h : events ≠ []) : buildNodes events conflicts ≠ [] := by
  match events, h with
  | e :: t, _ =>
    intro hc
    have := mem_buildNodes_of_event (e :: t) conflicts e (by simp)
    rw [hc] at this
    simp at this

/-! ### Vertex selection -/

theorem foldl_pick_mem (G : Graph) (rem : List String) :
    ∀ (vs : List String) (best : String),
      vs.foldl (fun best u => if remDeg G rem best < remDeg G rem u then u else best) best ∈
        best :: vs := by
  intro vs
  induction vs with
  | nil => intro best; simp [List.foldl]
  | cons u t ih =>
    intro best
    simp only [List.foldl_cons]
    by_cases hc : remDeg G rem best < remDeg G rem u
    · rw [if_pos hc]
      exact List.mem_cons.mpr (Or.inr (ih u))
    · rw [if_neg hc]
      rcases List.mem_cons.mp (ih best) with h1 | h1
      · exact List.mem_cons.mpr (Or.inl h1)
      · exact List.mem_cons.mpr (Or.inr (List.mem_cons.mpr (Or.inr h1)))

theorem pickMax_mem (G : Graph) (rem : List String) (v : String)
    (h : pickMax G rem = some v) : v ∈ rem := by
  match rem with
  | [] => simp [pickMax] at h
  | w :: vs =>
    simp only [pickMax, Option.some.injEq] at h
    have := foldl_pick_mem G (w :: vs) vs w
    rw [h] at this
    exact this

theorem pickMax_none (G : Graph) (rem : List String) (h : pickMax G rem = none) : rem = [] := by
  match rem with
  | [] => rfl
  | w :: vs => simp [pickMax] at h

/-! ### Greedy coloring invariants -/

theorem adjB_symm (G : Graph) (u v : String) (h : adjB G u v = true) : adjB G v u = true := by
  simp only [adjB, List.any_eq_true] at h ⊢
  obtain ⟨e, he, hc⟩ := h
  refine ⟨e, he, ?_⟩
  rw [Bool.or_comm]
  exact hc

theorem mem_usedColors (G : Graph) (asg : List (String × Nat)) (v : String)
    (p : String × Nat) (hp : p ∈ asg) (hadj : adjB G v p.1 = true) :
    p.2 ∈ usedColors G asg v := by
  simp only [usedColors, List.mem_filterMap]
  exact ⟨p, hp, by simp [hadj]⟩

theorem usedColors_sub (G : Graph) (asg : List (String × Nat)) (v : String)
    (c : Nat) (h : c ∈ usedColors G asg v) : c ∈ asg.map Prod.snd := by
  simp only [usedColors, List.mem_filterMap] at h
  obtain ⟨p, hp, he⟩ := h
  split at he
  · exact Option.some.inj he ▸ List.mem_map_of_mem Prod.snd hp
  · simp at he

theorem usedColors_length_le (G : Graph) (asg : List (String × Nat)) (v : String) :
    (usedColors G asg v).length ≤ asg.length :=
  List.length_filterMap_le _ _

/-- The invariant of in-progress greedy colorings: distinct keys, adjacent
vertices colored differently, colors below the number of colored
vertices, and the used color set downward closed. -/
def ProperAsg (G : Graph) (asg : List (String × Nat)) : Prop :=
  (asg.map Prod.fst).Nodup ∧
  (∀ p ∈ asg, ∀ q ∈ asg, p.1 ≠ q.1 → adjB G p.1 q.1 = true → p.2 ≠ q.2) ∧
  (∀ p ∈ asg, p.2 < asg.length) ∧
  (∀ p ∈ asg, ∀ j < p.2, j ∈ asg.map Prod.snd)

theorem ProperAsg_nil (G : Graph) : ProperAsg G [] := by
  refine ⟨List.nodup_nil, ?_, ?_, ?_⟩ <;> simp

theorem ProperAsg_step (G : Graph) (rem : List String) (asg : List (String × Nat)) (v : String)
    (hrem : rem.Nodup) (hdisj : ∀ p ∈ asg, p.1 ∉ rem) (hv : v ∈ rem) (hp : ProperAsg G asg) :
    (rem.erase v).Nodup ∧
      (∀ p ∈ asg ++ [(v, mex (usedColors G asg v))], p.1 ∉ rem.erase v) ∧
      ProperAsg G (asg ++ [(v, mex (usedColors G asg v))]) := by
  obtain ⟨hnd, hprop, hlt, hdc⟩ := hp
  have hvk : ∀ p ∈ asg, p.1 ≠ v := fun p hp hc => hdisj p hp (hc ▸ hv)
  refine ⟨hrem.erase v, ?_, ?_, ?_, ?_, ?_⟩
  · intro p hp
    rcases List.mem_append.mp hp with h | h
    · exact fun hc => hdisj p h (List.erase_subset _ _ hc)
    · have he : p = (v, mex (usedColors G asg v)) := by simpa using h
      rw [he]
      exact hrem.not_mem_erase
  · rw [List.map_append]
    simp only [List.map_cons, List.map_nil]
    rw [List.nodup_append]
    refine ⟨hnd, by simp, ?_⟩
    intro a ha hb
    simp only [List.mem_singleton] at hb
    subst hb
    obtain ⟨p, hp, hpa⟩ := List.mem_map.mp ha
    exact hvk p hp hpa
  · intro p hpm q hqm hne hadj
    rcases List.mem_append.mp hpm with h1 | h1 <;> rcases List.mem_append.mp hqm with h2 | h2
    · exact hprop p h1 q h2 hne hadj
    · have he : q = (v, mex (usedColors G asg v)) := by simpa using h2
      subst he
      intro hc
      have hu : p.2 ∈ usedColors G asg v := mem_usedColors G asg v p h1 (adjB_symm G p.1 v hadj)
      rw [hc] at hu
      exact mex_notMem (usedColors G asg v) hu
    · have he : p = (v, mex (usedColors G asg v)) := by simpa using h1
      subst he
      intro hc
      have hu : q.2 ∈ usedColors G asg v := mem_usedColors G asg v q h2 hadj
      rw [← hc] at hu
      exact mex_notMem (usedColors G asg v) hu
    · have he1 : p = (v, mex (usedColors G asg v)) := by simpa using h1
      have he2 : q = (v, mex (usedColors G asg v)) := by simpa using h2
      rw [he1, he2] at hne
      simp at hne
  · intro p hpm
    rw [List.length_append]
    rcases List.mem_append.mp hpm with h1 | h1
    · have := hlt p h1
      simp only [List.length_cons, List.length_nil]
      omega
    · have he : p = (v, mex (usedColors G asg v)) := by simpa using h1
      rw [he]
      have h2 := mex_le_length (usedColors G asg v)
      have h3 := usedColors_length_le G asg v
      simp only [List.length_cons, List.length_nil]
      omega
  · intro p hpm j hj
    rw [List.map_append]
    rcases List.mem_append.mp hpm with h1 | h1
    · exact List.mem_append.mpr (Or.inl (hdc p h1 j hj))
    · have he : p = (v, mex (usedColors G asg v)) := by simpa using h1
      rw [he] at hj
      have hu : j ∈ usedColors G asg v := mex_mem_of_lt (usedColors G asg v) j hj
      exact List.mem_append.mpr (Or.inl (usedColors_sub G asg v j hu))

theorem greedyGo_proper (G : Graph) :
    ∀ fuel rem asg, rem.Nodup → (∀ p ∈ asg, p.1 ∉ rem) → ProperAsg G asg →
      ProperAsg G (greedyGo G fuel rem asg) := by
  intro fuel
  induction fuel with
  | zero => intro rem asg _ _ h3; simpa [greedyGo] using h3
  | succ f ih =>
    intro rem asg h1 h2 h3
    rcases hpk : pickMax G rem with _ | v
    · simpa [greedyGo, hpk] using h3
    · have hv := pickMax_mem G rem v hpk
      obtain ⟨s1, s2, s3⟩ := ProperAsg_step G rem asg v h1 h2 hv h3
      simpa [greedyGo, hpk] using ih (rem.erase v) _ s1 s2 s3

theorem greedyGo_mem (G : Graph) :
    ∀ fuel rem asg x, rem.length ≤ fuel → (x ∈ rem ∨ ∃ c, (x, c) ∈ asg) →
      ∃ c, (x, c) ∈ greedyGo G fuel rem asg := by
  intro fuel
  induction fuel with
  | zero =>
    intro rem asg x hf hx
    rcases hx with h | h
    · have : rem = [] := List.length_eq_zero.mp (Nat.le_zero.mp hf)
      rw [this] at h
      simp at h
    · simpa [greedyGo] using h
  | succ f ih =>
    intro rem asg x hf hx
    rcases hpk : pickMax G rem with _ | v
    · have hnil := pickMax_none G rem hpk
      subst hnil
      rcases hx with h | h
      · simp at h
      · simpa [greedyGo, hpk] using h
    · have hv := pickMax_mem G rem v hpk
      have hlen : (rem.erase v).length ≤ f := by
        rw [List.length_erase_of_mem hv]
        omega
      simp only [greedyGo, hpk]
      apply ih (rem.erase v) _ x hlen
      rcases hx with h | h
      · by_cases hxv : x = v
        · exact Or.inr ⟨mex (usedColors G asg v), by simp [hxv]⟩
        · exact Or.inl ((List.mem_erase_of_ne hxv).mpr h)
      · obtain ⟨c, hc⟩ := h
        exact Or.inr ⟨c, by simp [hc]⟩

theorem greedyGo_length (G : Graph) :
    ∀ fuel rem asg, rem.length ≤ fuel →
      (greedyGo G fuel rem asg).length = asg.length + rem.length := by
  intro fuel
  induction fuel with
  | zero =>
    intro rem asg hf
    have : rem = [] := List.length_eq_zero.mp (Nat.le_zero.mp hf)
    subst this
    simp [greedyGo]
  | succ f ih =>
    intro rem asg hf
    rcases hpk : pickMax G rem with _ | v
    · have hnil := pickMax_none G rem hpk
      subst hnil
      simp [greedyGo, hpk]
    · have hv := pickMax_mem G rem v hpk
      have hpos : 0 < rem.length := List.length_pos.mpr (by intro hc; subst hc; simp at hv)
      have hlen : (rem.erase v).length ≤ f := by
        rw [List.length_erase_of_mem hv]
        omega
      simp only [greedyGo, hpk]
      rw [ih (rem.erase v) _ hlen]
      rw [List.length_erase_of_mem hv]
      simp only [List.length_append, List.length_cons, List.length_nil]
      omega

theorem greedyGo_src (G : Graph) :
    ∀ fuel rem asg p, p ∈ greedyGo G fuel rem asg → p ∈ asg ∨ p.1 ∈ rem := by
  intro fuel
  induction fuel with
  | zero =>
    intro rem asg p hp
    simp only [greedyGo] at hp
    exact Or.inl hp
  | succ f ih =>
    intro rem asg p hp
    rcases hpk : pickMax G rem with _ | v
    · simp only [greedyGo, hpk] at hp
      exact Or.inl hp
    · have hv := pickMax_mem G rem v hpk
      simp only [greedyGo, hpk] at hp
      rcases ih (rem.erase v) _ p hp with h | h
      · rcases List.mem_append.mp h with h1 | h1
        · exact Or.inl h1
        · have he : p = (v, mex (usedColors G asg v)) := by simpa using h1
          exact Or.inr (he ▸ hv)
      · exact Or.inr (List.erase_subset _ _ h)

/-! ### The assignment computed by `schedule_events` -/

theorem assignment_proper (events : List String) (conflicts : List (String × String)) :
    ProperAsg (buildGraph events conflicts) (assignment events conflicts) :=
  greedyGo_proper _ _ _ _ (buildNodes_nodup events conflicts) (by simp) (ProperAsg_nil _)

theorem assignment_covers (events : List String) (conflicts : List (String × String))
    (x : String) (h : x ∈ buildNodes events conflicts) :
    ∃ c, (x, c) ∈ assignment events conflicts :=
  greedyGo_mem _ _ _ _ x (le_refl _) (Or.inl h)

theorem assignment_length (events : List String) (conflicts : List (String × String)) :
    (assignment events conflicts).length = (buildNodes events conflicts).length := by
  have := greedyGo_length (buildGraph events conflicts) (buildNodes events conflicts).length
    (buildNodes events conflicts) [] (le_refl _)
  simpa [assignment, greedy_color, buildGraph] using this

theorem assignment_src (events : List String) (conflicts : List (String × String))
    (p : String × Nat) (h : p ∈ assignment events conflicts) :
    p.1 ∈ buildNodes events conflicts := by
  rcases greedyGo_src _ _ _ _ p h with h1 | h1
  · simp at h1
  · exact h1

/-! ### Pair enumeration and random selection -/

/-- Two conflict records denote different unordered pairs. -/
def DiffPair (pr qr : String × String) : Prop :=
  ¬ (pr = qr ∨ (pr.1 = qr.2 ∧ pr.2 = qr.1))

theorem pairsList_components : ∀ (l : List String) p, p ∈ pairsList l → p.1 ∈ l ∧ p.2 ∈ l := by
  intro l
  induction l with
  | nil => intro p hp; simp [pairsList] at hp
  | cons e es ih =>
    intro p hp
    simp only [pairsList, List.mem_append] at hp
    rcases hp with h | h
    · obtain ⟨e2, he2, hpe⟩ := List.mem_map.mp h
      rw [← hpe]
      exact ⟨by simp, by simp [he2]⟩
    · have hc := ih p h
      exact ⟨by simp [hc.1], by simp [hc.2]⟩

theorem pairsList_ne (l : List String) (h : l.Nodup) : ∀ p ∈ pairsList l, p.1 ≠ p.2 := by
  induction l with
  | nil => intro p hp; simp [pairsList] at hp
  | cons e es ih =>
    intro p hp
    simp only [pairsList, List.mem_append] at hp
    rw [List.nodup_cons] at h
    rcases hp with h1 | h1
    · obtain ⟨e2, he2, hpe⟩ := List.mem_map.mp h1
      rw [← hpe]
      intro hc
      simp only at hc
      exact h.1 (hc ▸ he2)
    · exact ih h.2 p h1

theorem pairsList_pairwise (l : List String) (h : l.Nodup) :
    (pairsList l).Pairwise DiffPair := by
  induction l with
  | nil => simp [pairsList]
  | cons e es ih =>
    rw [List.nodup_cons] at h
    simp only [pairsList]
    rw [List.pairwise_append]
    refine ⟨?_, ih h.2, ?_⟩
    · rw [List.pairwise_map]
      apply List.Pairwise.imp_of_mem ?_ h.2
      intro a b ha hb hab
      intro hc
      rcases hc with hc | hc
      · exact hab (by simpa using hc)
      · have heb : e = b := hc.1
        exact h.1 (heb ▸ hb)
    · intro a ha b hb
      obtain ⟨x, _, hax⟩ := List.mem_map.mp ha
      have hcomp := pairsList_components es b hb
      rw [← hax]
      intro hc
      rcases hc with hc | hc
      · rw [← hc] at hcomp
        exact h.1 hcomp.1
      · have heb : e = b.2 := hc.1
        exact h.1 (heb ▸ hcomp.2)

theorem pairsList_get_mem :
    ∀ (l : List String) (i j : Nat) (hij : i < j) (hj : j < l.length),
      (l.get ⟨i, lt_trans hij hj⟩, l.get ⟨j, hj⟩) ∈ pairsList l := by
  intro l
  induction l with
  | nil => intro i j hij hj; simp at hj
  | cons e es ih =>
    intro i j hij hj
    match i, j with
    | 0, j2 + 1 =>
      simp only [pairsList, List.mem_append]
      left
      have hj2 : j2 < es.length := by simpa using hj
      refine List.mem_map.mpr ⟨es.get ⟨j2, hj2⟩, List.get_mem es j2 hj2, ?_⟩
      simp [List.get]
    | i2 + 1, j2 + 1 =>
      simp only [pairsList, List.mem_append]
      right
      have hij2 : i2 < j2 := by omega
      have hj2 : j2 < es.length := by simpa using hj
      have hm := ih i2 j2 hij2 hj2
      simpa [List.get] using hm

theorem selectPairs_sublist (p : ℚ) (draws : Nat → ℚ) :
    ∀ prs k, List.Sublist (selectPairs p draws prs k) prs := by
  intro prs
  induction prs with
  | nil => intro k; simp [selectPairs]
  | cons pr t ih =>
    intro k
    simp only [selectPairs]
    split
    · exact List.Sublist.cons₂ pr (ih (k + 1))
    · exact List.Sublist.cons pr (ih (k + 1))

theorem selectPairs_all (p : ℚ) (draws : Nat → ℚ) (h : ∀ m, draws m < p) :
    ∀ prs k, selectPairs p draws prs k = prs := by
  intro prs
  induction prs with
  | nil => intro k; simp [selectPairs]
  | cons pr t ih => intro k; simp [selectPairs, h k, ih]

theorem selectPairs_empty (p : ℚ) (draws : Nat → ℚ) (h : ∀ m, ¬ draws m < p) :
    ∀ prs k, selectPairs p draws prs k = [] := by
  intro prs
  induction prs with
  | nil => intro k; simp [selectPairs]
  | cons pr t ih => intro k; simp [selectPairs, h k, ih]

/-! ### Room counts -/

theorem assignment_ne_nil (events : List String) (conflicts : List (String × String))
    (h : events ≠ []) : assignment events conflicts ≠ [] := by
  intro hc
  have hl := assignment_length events conflicts
  rw [hc] at hl
  simp only [List.length_nil] at hl
  exact buildNodes_ne_nil events conflicts h (List.length_eq_zero.mp hl.symm)

theorem schedule_events_of_ne (events : List String) (conflicts : List (String × String))
    (h : assignment events conflicts ≠ []) :
    schedule_events events conflicts =
      ((assignment events conflicts).map Prod.snd).foldr max 0 + 1 := by
  have he : (assignment events conflicts).isEmpty = false := by
    simpa [List.isEmpty_iff] using h
  simp [schedule_events, he]

theorem schedule_events_of_nil (events : List String) (conflicts : List (String × String))
    (h : assignment events conflicts = []) : schedule_events events conflicts = 0 := by
  simp [schedule_events, h]

/-- The room of an event under an assignment (well defined when keys are
distinct). -/
def colorOf (asg : List (String × Nat)) (x : String) : Nat := (asg.lookup x).getD 0

theorem colorOf_eq (asg : List (String × Nat)) (x : String) (c : Nat)
    (hnd : (asg.map Prod.fst).Nodup) (h : (x, c) ∈ asg) : colorOf asg x = c := by
  simp [colorOf, lookup_eq_of_mem asg x c hnd h]

theorem schedule_bounds_aux (events : List String) (conflicts : List (String × String))
    (hne : events ≠ [])
    (hmem : ∀ p ∈ conflicts, p.1 ∈ events ∧ p.2 ∈ events) :
    1 ≤ schedule_events events conflicts ∧ schedule_events events conflicts ≤ events.length := by
  have hA := assignment_ne_nil events conflicts hne
  rw [schedule_events_of_ne events conflicts hA]
  refine ⟨by omega, ?_⟩
  have hcne : (assignment events conflicts).map Prod.snd ≠ [] := by simpa using hA
  have hmax := foldr_max_mem _ hcne
  obtain ⟨q, hq, hq2⟩ := List.mem_map.mp hmax
  have hlt := (assignment_proper events conflicts).2.2.1 q hq
  have hlen := assignment_length events conflicts
  have hnd := buildNodes_nodup events conflicts
  have hble : (buildNodes events conflicts).length ≤ events.length := by
    have h1 : (buildNodes events conflicts).toFinset ⊆ events.toFinset := by
      intro x hx
      simp only [List.mem_toFinset] at hx ⊢
      exact buildNodes_subset events conflicts hmem x hx
    have h2 := Finset.card_le_card h1
    rw [List.card_toFinset, List.dedup_eq_self.mpr hnd] at h2
    exact le_trans h2 events.toFinset_card_le
  omega

theorem generated_conflicts_mem (n : Nat) (p : ℚ) (draws : Nat → ℚ) :
    ∀ pr ∈ (generate_random_data n p draws).2, pr.1 ∈ eventNames n ∧ pr.2 ∈ eventNames n := by
  intro pr hpr
  have hmem : pr ∈ pairsList (eventNames n) := (selectPairs_sublist p draws _ 0).subset hpr
  exact pairsList_components _ pr hmem

theorem trialConfigs_inner_length (probs : List ℚ) (reps n : Nat) :
    (probs.flatMap (fun p => (List.range reps).map (fun _ => (n, p)))).length =
      probs.length * reps := by
  induction probs with
  | nil => simp
  | cons p t ih =>
    simp only [List.flatMap_cons, List.length_append, List.length_map, List.length_range, ih,
      List.length_cons]
    ring

theorem trialConfigs_length (sizes : List Nat) (probs : List ℚ) (reps : Nat) :
    (trialConfigs sizes probs reps).length = sizes.length * probs.length * reps := by
  induction sizes with
  | nil => simp [trialConfigs]
  | cons s t ih =>
    simp only [trialConfigs, List.flatMap_cons, List.length_append] at ih ⊢
    rw [trialConfigs_inner_length, ih, List.length_cons]
    ring

theorem run_length_aux (sizes : List Nat) (probs : List ℚ) (reps : Nat) (draws : Nat → Nat → ℚ) :
    (run_parametrized_tests sizes probs reps draws).length =
      sizes.length * probs.length * reps := by
  unfold run_parametrized_tests
  rw [List.length_map, List.enum_length]
  exact trialConfigs_length sizes probs reps

theorem run_config_aux (sizes : List Nat) (probs : List ℚ) (reps : Nat) (draws : Nat → Nat → ℚ) :
    (run_parametrized_tests sizes probs reps draws).map
        (fun r => (r.num_events, r.conflict_probability)) =
      trialConfigs sizes probs reps := by
  unfold run_parametrized_tests
  rw [List.map_map]
  have h : ((fun r : TrialResult => (r.num_events, r.conflict_probability)) ∘
      fun tc : Nat × (Nat × ℚ) => runTrial tc.2 (draws tc.1)) = fun tc => tc.2 := by
    funext tc
    simp [runTrial]
  rw [h]
  exact List.enum_map_snd _

/-! ### Claim theorems -/

/-- C1: for every Instance satisfying the data-model invariant (every
Event referenced by a Conflict is in the Event set, Conflicts
irreflexive), the assignment computed by `schedule_events` is
conflict-free: for every Conflict `(e1, e2)`, the room assigned to `e1`
differs from the room assigned to `e2`. -/
theorem schedule_events_conflict_free (events : List String) (conflicts : List (String × String))
    (_hmem : ∀ p ∈ conflicts, p.1 ∈ events ∧ p.2 ∈ events)
    (hirr : ∀ p ∈ conflicts, p.1 ≠ p.2) :
    ∀ p ∈ conflicts, ∃ c1 c2,
      (p.1, c1) ∈ assignment events conflicts ∧ (p.2, c2) ∈ assignment events conflicts ∧
      c1 ≠ c2 ∧ (∀ d, (p.1, d) ∈ assignment events conflicts → d = c1) ∧
      (∀ d, (p.2, d) ∈ assignment events conflicts → d = c2) := by
  intro p hp
  have h1 := (mem_buildNodes_of_conflict events conflicts p hp).1
  have h2 := (mem_buildNodes_of_conflict events conflicts p hp).2
  obtain ⟨c1, hc1⟩ := assignment_covers events conflicts p.1 h1
  obtain ⟨c2, hc2⟩ := assignment_covers events conflicts p.2 h2
  obtain ⟨hnd, hprop, _, _⟩ := assignment_proper events conflicts
  have hadj : adjB (buildGraph events conflicts) p.1 p.2 = true := by
    simp only [adjB, buildGraph, List.any_eq_true]
    exact ⟨p, hp, by simp⟩
  refine ⟨c1, c2, hc1, hc2, ?_, ?_, ?_⟩
  · exact hprop (p.1, c1) hc1 (p.2, c2) hc2 (hirr p hp) hadj
  · intro d hd
    exact mem_unique_of_keys_nodup _ p.1 d c1 hnd hd hc1
  · intro d hd
    exact mem_unique_of_keys_nodup _ p.2 d c2 hnd hd hc2

theorem schedule_events_conflict_free_witness :
    ∃ c1 c2, ("E1", c1) ∈ assignment ["E1", "E2"] [("E1", "E2")] ∧
      ("E2", c2) ∈ assignment ["E1", "E2"] [("E1", "E2")] ∧ c1 ≠ c2 ∧
      (∀ d, ("E1", d) ∈ assignment ["E1", "E2"] [("E1", "E2")] → d = c1) ∧
      (∀ d, ("E2", d) ∈ assignment ["E1", "E2"] [("E1", "E2")] → d = c2) :=
  schedule_events_conflict_free ["E1", "E2"] [("E1", "E2")] (by decide) (by decide)
    ("E1", "E2") (by decide)

/-- C2: `schedule_events` returns 1 plus the maximum room index used in
the computed assignment, and 0 on the empty Instance. -/
theorem schedule_events_roomcount (events : List String) (conflicts : List (String × String)) :
    (events = [] → conflicts = [] → schedule_events events conflicts = 0) ∧
    (events ≠ [] → ∃ m, m ∈ (assignment events conflicts).map Prod.snd ∧
      (∀ c ∈ (assignment events conflicts).map Prod.snd, c ≤ m) ∧
      schedule_events events conflicts = m + 1) := by
  constructor
  · intro he hc
    subst he
    subst hc
    decide
  · intro hne
    have hA := assignment_ne_nil events conflicts hne
    have hcols : (assignment events conflicts).map Prod.snd ≠ [] := by simpa using hA
    exact ⟨((assignment events conflicts).map Prod.snd).foldr max 0,
      foldr_max_mem _ hcols, mem_le_foldr_max _, schedule_events_of_ne events conflicts hA⟩

theorem schedule_events_roomcount_witness :
    schedule_events [] [] = 0 ∧
    (∃ m, m ∈ (assignment ["E1"] []).map Prod.snd ∧
      (∀ c ∈ (assignment ["E1"] []).map Prod.snd, c ≤ m) ∧
      schedule_events ["E1"] [] = m + 1) :=
  ⟨(schedule_events_roomcount [] []).1 rfl rfl,
   (schedule_events_roomcount ["E1"] []).2 (by decide)⟩

/-- C3: the returned RoomCount equals the number of distinct colors
produced by the largest-degree-first greedy coloring process. -/
theorem schedule_events_distinct_colors (events : List String)
    (conflicts : List (String × String)) :
    schedule_events events conflicts =
      ((assignment events conflicts).map Prod.snd).dedup.length := by
  rcases eq_or_ne (assignment events conflicts) [] with h | h
  · rw [schedule_events_of_nil events conflicts h, h]
    simp
  · rw [schedule_events_of_ne events conflicts h]
    have hcne : (assignment events conflicts).map Prod.snd ≠ [] := by simpa using h
    have hdc : ∀ c ∈ (assignment events conflicts).map Prod.snd, ∀ j < c,
        j ∈ (assignment events conflicts).map Prod.snd := by
      intro c hc j hj
      obtain ⟨p, hp, hpc⟩ := List.mem_map.mp hc
      have hj2 : j < p.2 := by rw [hpc]; exact hj
      exact (assignment_proper events conflicts).2.2.2 p hp j hj2
    have hM : ((assignment events conflicts).map Prod.snd).toFinset =
        Finset.range (((assignment events conflicts).map Prod.snd).foldr max 0 + 1) := by
      ext x
      simp only [List.mem_toFinset, Finset.mem_range]
      constructor
      · intro hx
        have := mem_le_foldr_max _ x hx
        omega
      · intro hx
        have hmem := foldr_max_mem _ hcne
        rcases Nat.lt_or_ge x (((assignment events conflicts).map Prod.snd).foldr max 0)
          with hlt | hge
        · exact hdc _ hmem x hlt
        · have hx2 : x = ((assignment events conflicts).map Prod.snd).foldr max 0 := by omega
          exact hx2 ▸ hmem
    have hcard := congrArg Finset.card hM
    rw [List.card_toFinset, Finset.card_range] at hcard
    omega

/-- C4: the three end-to-end scenarios of the spec: K4 needs 4 rooms, 4
isolated events need 1 room, a triangle plus two isolated events needs 3
rooms. -/
theorem schedule_events_scenarios :
    schedule_events ["E1", "E2", "E3", "E4"]
        [("E1", "E2"), ("E1", "E3"), ("E1", "E4"), ("E2", "E3"), ("E2", "E4"), ("E3", "E4")] = 4 ∧
    schedule_events ["E1", "E2", "E3", "E4"] [] = 1 ∧
    schedule_events ["E1", "E2", "E3", "E4", "E5"]
        [("E1", "E2"), ("E2", "E3"), ("E1", "E3")] = 3 :=
  ⟨by decide, by decide, by decide⟩

/-- C5: with all draws in `[0, 1)`, conflict probability 0 yields no
conflicts and probability 1 yields every unordered pair of distinct
events. -/
theorem generate_random_data_extremes (num_events : Nat) (draws : Nat → ℚ)
    (h0 : ∀ k, 0 ≤ draws k) (h1 : ∀ k, draws k < 1) :
    (generate_random_data num_events 0 draws).2 = [] ∧
    (generate_random_data num_events 1 draws).2 = pairsList (eventNames num_events) ∧
    (∀ i j, i < j → j < num_events →
      ("E" ++ Nat.repr (i + 1), "E" ++ Nat.repr (j + 1)) ∈
        (generate_random_data num_events 1 draws).2) := by
  refine ⟨?_, ?_, ?_⟩
  · show selectPairs 0 draws (pairsList (eventNames num_events)) 0 = []
    exact selectPairs_empty 0 draws (fun m => not_lt.mpr (h0 m)) _ 0
  · show selectPairs 1 draws (pairsList (eventNames num_events)) 0 = _
    exact selectPairs_all 1 draws h1 _ 0
  · intro i j hij hj
    have hlen : j < (eventNames num_events).length := by
      rw [eventNames_length]
      exact hj
    have hget := pairsList_get_mem (eventNames num_events) i j hij hlen
    have hgeti : (eventNames num_events).get ⟨i, lt_trans hij hlen⟩ = "E" ++ Nat.repr (i + 1) := by
      simp [eventNames]
    have hgetj : (eventNames num_events).get ⟨j, hlen⟩ = "E" ++ Nat.repr (j + 1) := by
      simp [eventNames]
    rw [hgeti, hgetj] at hget
    show _ ∈ selectPairs 1 draws (pairsList (eventNames num_events)) 0
    rw [selectPairs_all 1 draws h1 _ 0]
    exact hget

theorem generate_random_data_extremes_witness :
    (generate_random_data 3 0 (fun _ => 0)).2 = [] ∧
    (generate_random_data 3 1 (fun _ => 0)).2 = pairsList (eventNames 3) ∧
    (∀ i j, i < j → j < 3 →
      ("E" ++ Nat.repr (i + 1), "E" ++ Nat.repr (j + 1)) ∈
        (generate_random_data 3 1 (fun _ => 0)).2) :=
  generate_random_data_extremes 3 (fun _ => 0) (fun _ => by norm_num) (fun _ => by norm_num)

/-- C6 counterexample: two mutually-conflicting events form a clique of
size 2, yet `schedule_events` returns 2, which is not ≥ 1 + 2; the
claimed bound `RoomCount ≥ 1 + clique size` fails. -/
theorem clique_bound_counterexample :
    (["E1", "E2"] : List String).Nodup ∧
    (∀ a ∈ ["E1", "E2"], a ∈ ["E1", "E2"]) ∧
    (∀ a ∈ ["E1", "E2"], ∀ b ∈ ["E1", "E2"], a ≠ b →
      (a, b) ∈ [("E1", "E2")] ∨ (b, a) ∈ [("E1", "E2")]) ∧
    schedule_events ["E1", "E2"] [("E1", "E2")] = 2 ∧
    ¬ schedule_events ["E1", "E2"] [("E1", "E2")] ≥ 1 + 2 := by
  decide

/-- C6 amended: the RoomCount returned by `schedule_events` is at least
the size of any mutually-conflicting subset of Events (clique) present in
the instance — `k`, not `1 + k`. -/
theorem schedule_events_clique_bound (events : List String) (conflicts : List (String × String))
    (K : List String)
    (hK : ∀ a ∈ K, a ∈ events)
    (hKnd : K.Nodup)
    (hclique : ∀ a ∈ K, ∀ b ∈ K, a ≠ b → (a, b) ∈ conflicts ∨ (b, a) ∈ conflicts) :
    K.length ≤ schedule_events events conflicts := by
  rcases eq_or_ne K [] with hKnil | hKnil
  · subst hKnil
    simp
  · have hene : events ≠ [] := by
      match K, hKnil with
      | a :: t, _ =>
        intro hc
        have := hK a (by simp)
        rw [hc] at this
        simp at this
    have hA := assignment_ne_nil events conflicts hene
    obtain ⟨hnd, hprop, hlt, _⟩ := assignment_proper events conflicts
    have hcov : ∀ a ∈ K, (a, colorOf (assignment events conflicts) a) ∈
        assignment events conflicts := by
      intro a ha
      obtain ⟨c, hc⟩ := assignment_covers events conflicts a
        (mem_buildNodes_of_event events conflicts a (hK a ha))
      rw [colorOf_eq _ a c hnd hc]
      exact hc
    have hmapnd : (K.map (colorOf (assignment events conflicts))).Nodup := by
      apply hKnd.map_on
      intro a ha b hb hab
      by_contra hne
      have hadj : adjB (buildGraph events conflicts) a b = true := by
        simp only [adjB, buildGraph, List.any_eq_true]
        rcases hclique a ha b hb hne with h | h
        · exact ⟨(a, b), h, by simp⟩
        · exact ⟨(b, a), h, by simp⟩
      have := hprop (a, colorOf (assignment events conflicts) a) (hcov a ha)
        (b, colorOf (assignment events conflicts) b) (hcov b hb) hne hadj
      exact this hab
    have hbnd : ∀ x ∈ K.map (colorOf (assignment events conflicts)),
        x < schedule_events events conflicts := by
      intro x hx
      obtain ⟨a, ha, hax⟩ := List.mem_map.mp hx
      have hmem := hcov a ha
      have h1 := hlt (a, colorOf (assignment events conflicts) a) hmem
      have h2 := mem_le_foldr_max ((assignment events conflicts).map Prod.snd)
        (colorOf (assignment events conflicts) a)
        (List.mem_map_of_mem Prod.snd hmem)
      rw [schedule_events_of_ne events conflicts hA, ← hax]
      omega
    have := nodup_lt_length_le (K.map (colorOf (assignment events conflicts)))
      (schedule_events events conflicts) hmapnd hbnd
    simpa using this

theorem schedule_events_clique_bound_witness :
    (["E1", "E2"] : List String).length ≤ schedule_events ["E1", "E2"] [("E1", "E2")] :=
  schedule_events_clique_bound ["E1", "E2"] [("E1", "E2")] ["E1", "E2"]
    (by decide) (by decide) (by decide)

/-- C7: `generate_random_data` returns exactly `num_events` uniquely
named events; every conflict is a pair of distinct events present in the
event list; each unordered pair occurs at most once; `num_events = 0`
yields the empty Instance. -/
theorem generate_random_data_wellformed (num_events : Nat) (p : ℚ) (draws : Nat → ℚ) :
    (generate_random_data num_events p draws).1.length = num_events ∧
    (generate_random_data num_events p draws).1.Nodup ∧
    (∀ pr ∈ (generate_random_data num_events p draws).2,
      pr.1 ∈ (generate_random_data num_events p draws).1 ∧
      pr.2 ∈ (generate_random_data num_events p draws).1 ∧ pr.1 ≠ pr.2) ∧
    (generate_random_data num_events p draws).2.Pairwise DiffPair ∧
    (num_events = 0 →
      (generate_random_data num_events p draws).1 = [] ∧
      (generate_random_data num_events p draws).2 = []) := by
  refine ⟨eventNames_length num_events, eventNames_nodup num_events, ?_, ?_, ?_⟩
  · intro pr hpr
    have hmem : pr ∈ pairsList (eventNames num_events) :=
      (selectPairs_sublist p draws _ 0).subset hpr
    have hcomp := pairsList_components _ pr hmem
    exact ⟨hcomp.1, hcomp.2, pairsList_ne _ (eventNames_nodup num_events) pr hmem⟩
  · exact (pairsList_pairwise _ (eventNames_nodup num_events)).sublist
      (selectPairs_sublist p draws _ 0)
  · intro h0
    subst h0
    exact ⟨rfl, rfl⟩

theorem generate_random_data_wellformed_witness :
    (generate_random_data 0 (1/2) (fun _ => 0)).1 = [] ∧
    (generate_random_data 0 (1/2) (fun _ => 0)).2 = [] :=
  (generate_random_data_wellformed 0 (1/2) (fun _ => 0)).2.2.2.2 rfl

/-- C8: `run_parametrized_tests` produces one row per repetition of each
configuration, in the order size-outermost, probability, repetition; the
spec's concrete scenario yields 5 rows with the stated fields and a room
count between 1 and 10. -/
theorem run_parametrized_tests_rows (event_sizes : List Nat) (conflict_probs : List ℚ)
    (repetitions : Nat) (draws : Nat → Nat → ℚ) :
    (run_parametrized_tests event_sizes conflict_probs repetitions draws).length =
      event_sizes.length * conflict_probs.length * repetitions ∧
    (run_parametrized_tests event_sizes conflict_probs repetitions draws).map
        (fun r => (r.num_events, r.conflict_probability)) =
      trialConfigs event_sizes conflict_probs repetitions ∧
    (run_parametrized_tests [10] [(1/2 : ℚ)] 5 draws).length = 5 ∧
    (∀ r ∈ run_parametrized_tests [10] [(1/2 : ℚ)] 5 draws,
      r.num_events = 10 ∧ r.conflict_probability = 1/2 ∧
      1 ≤ r.total_rooms ∧ r.total_rooms ≤ 10) := by
  refine ⟨run_length_aux event_sizes conflict_probs repetitions draws,
    run_config_aux event_sizes conflict_probs repetitions draws, ?_, ?_⟩
  · rw [run_length_aux]
    rfl
  · intro r hr
    simp only [run_parametrized_tests, List.mem_map] at hr
    obtain ⟨tc, htc, hrt⟩ := hr
    have hmem2 : tc.2 ∈ trialConfigs [10] [(1/2 : ℚ)] 5 := by
      have he := List.enum_map_snd (trialConfigs [10] [(1/2 : ℚ)] 5)
      rw [← he]
      exact List.mem_map_of_mem Prod.snd htc
    have hall : ∀ x ∈ trialConfigs [10] [(1/2 : ℚ)] 5, x = (10, (1/2 : ℚ)) := by
      intro x hx
      simp only [trialConfigs, List.flatMap_cons, List.flatMap_nil, List.append_nil,
        List.mem_map] at hx
      obtain ⟨a, _, hax⟩ := hx
      exact hax.symm
    have hcfg := hall tc.2 hmem2
    have hb := schedule_bounds_aux (eventNames 10)
      (generate_random_data 10 (1/2) (draws tc.1)).2
      (eventNames_ne_nil 10 (by omega))
      (generated_conflicts_mem 10 (1/2) (draws tc.1))
    rw [eventNames_length] at hb
    subst hrt
    rw [hcfg]
    exact ⟨rfl, rfl, hb.1, hb.2⟩

theorem run_parametrized_tests_rows_witness :
    (run_parametrized_tests [10] [(1/2 : ℚ)] 5 (fun _ _ => 0)).length = 5 ∧
    ((runTrial (10, (1/2 : ℚ)) (fun _ => (0 : ℚ))).num_events = 10 ∧
      (runTrial (10, (1/2 : ℚ)) (fun _ => (0 : ℚ))).conflict_probability = 1/2 ∧
      1 ≤ (runTrial (10, (1/2 : ℚ)) (fun _ => (0 : ℚ))).total_rooms ∧
      (runTrial (10, (1/2 : ℚ)) (fun _ => (0 : ℚ))).total_rooms ≤ 10) := by
  constructor
  · exact (run_parametrized_tests_rows [10] [(1/2 : ℚ)] 5 (fun _ _ => 0)).2.2.1
  · apply (run_parametrized_tests_rows [10] [(1/2 : ℚ)] 5 (fun _ _ => 0)).2.2.2
    simp only [run_parametrized_tests, List.mem_map]
    refine ⟨(0, (10, (1/2 : ℚ))), ?_, rfl⟩
    have hconf : trialConfigs [10] [(1/2 : ℚ)] 5 =
        [(10, (1/2 : ℚ)), (10, 1/2), (10, 1/2), (10, 1/2), (10, 1/2)] := by
      simp only [trialConfigs, List.flatMap_cons, List.flatMap_nil, List.append_nil]
      rw [show List.range 5 = [0, 1, 2, 3, 4] from by decide]
      simp
    rw [hconf]
    simp [List.enum, List.enumFrom]

/-- C9: `schedule_events` is deterministic — two runs on equal inputs
return the same RoomCount (the scheduler consumes no randomness in the
source, so its embedding is a pure function of the instance). -/
theorem schedule_events_deterministic (events1 events2 : List String)
    (conflicts1 conflicts2 : List (String × String))
    (he : events1 = events2) (hc : conflicts1 = conflicts2) :
    schedule_events events1 conflicts1 = schedule_events events2 conflicts2 := by
  rw [he, hc]

theorem schedule_events_deterministic_witness :
    schedule_events ["E1"] [] = schedule_events ["E1"] [] :=
  schedule_events_deterministic ["E1"] ["E1"] [] [] rfl rfl

/-- C10: for a non-empty event list and conflicts over those events, the
RoomCount is between 1 and the number of events. -/
theorem schedule_events_range (events : List String) (conflicts : List (String × String))
    (hne : events ≠ [])
    (hmem : ∀ p ∈ conflicts, p.1 ∈ events ∧ p.2 ∈ events) :
    1 ≤ schedule_events events conflicts ∧
      schedule_events events conflicts ≤ events.length :=
  schedule_bounds_aux events conflicts hne hmem

theorem schedule_events_range_witness :
    1 ≤ schedule_events ["E1", "E2"] [("E1", "E2")] ∧
      schedule_events ["E1", "E2"] [("E1", "E2")] ≤ (["E1", "E2"] : List String).length :=
  schedule_events_range ["E1", "E2"] [("E1", "E2")] (by decide) (by decide)
